import Mathlib

/-!
Verification of the Bitcoin transaction wire-format codec in src/lib.rs:
the CompactSize variable-length integer, OutPoint, Script, TransactionInput
and BitcoinTransaction binary codecs, the Txid hex text form, and the
human-readable transaction rendering.

Byte buffers are modelled as `List Nat` (every entry a byte value below 256
in the Rust domain); fallible decoders return
`Except BitcoinError (value x consumed)` exactly as the Rust functions
return `Result<(Self, usize), BitcoinError>`.
-/

namespace BitcoinWire

/-- Errors of the codec, mirroring the Rust enum `BitcoinError`. -/
inductive BitcoinError where
  | InsufficientBytes
  | InvalidFormat
deriving DecidableEq

/-- Value of a little-endian byte list (models `uN::from_le_bytes`). -/
def le_val : List Nat → Nat
  | [] => 0
  | b :: rest => b + 256 * le_val rest

/-- The n-byte little-endian encoding of v (models `uN::to_le_bytes`,
including the truncating `as uN` cast: byte k is v / 256^k % 256). -/
def le_bytes : Nat → Nat → List Nat
  | 0, _ => []
  | n + 1, v => v % 256 :: le_bytes n (v / 256)

/-- Mirrors `struct CompactSize { value: u64 }`. -/
structure CompactSize where
  value : Nat
deriving DecidableEq

/-- The Rust domain of `CompactSize`: the wrapped value is a u64. -/
def CompactSize.WF (cs : CompactSize) : Prop := cs.value < 2 ^ 64

instance (cs : CompactSize) : Decidable cs.WF := by
  unfold CompactSize.WF; infer_instance

/-- Mirrors `CompactSize::new`. -/
def CompactSize.new (value : Nat) : CompactSize := ⟨value⟩

/-- Mirrors `CompactSize::to_bytes`: 1-byte / 0xFD+u16 / 0xFE+u32 / 0xFF+u64
little-endian forms chosen by magnitude. -/
def CompactSize.to_bytes (cs : CompactSize) : List Nat :=
  if cs.value ≤ 0xFC then [cs.value % 256]
  else if cs.value ≤ 0xFFFF then 0xFD :: le_bytes 2 cs.value
  else if cs.value ≤ 0xFFFFFFFF then 0xFE :: le_bytes 4 cs.value
  else 0xFF :: le_bytes 8 cs.value

/-- Mirrors `CompactSize::from_bytes`: empty buffer fails; otherwise the
first byte selects the width, and the required trailing bytes must be
present (the cons patterns are the `bytes.len() < n` checks). -/
def CompactSize.from_bytes : List Nat → Except BitcoinError (CompactSize × Nat)
  | [] => .error .InsufficientBytes
  | b0 :: rest =>
    if b0 ≤ 0xFC then .ok (CompactSize.new b0, 1)
    else if b0 = 0xFD then
      match rest with
      | b1 :: b2 :: _ => .ok (CompactSize.new (le_val [b1, b2]), 3)
      | _ => .error .InsufficientBytes
    else if b0 = 0xFE then
      match rest with
      | b1 :: b2 :: b3 :: b4 :: _ => .ok (CompactSize.new (le_val [b1, b2, b3, b4]), 5)
      | _ => .error .InsufficientBytes
    else
      match rest with
      | b1 :: b2 :: b3 :: b4 :: b5 :: b6 :: b7 :: b8 :: _ =>
        .ok (CompactSize.new (le_val [b1, b2, b3, b4, b5, b6, b7, b8]), 9)
      | _ => .error .InsufficientBytes

/-- The encoding-width table of the CompactSize format. -/
def csWidth (v : Nat) : Nat :=
  if v ≤ 252 then 1 else if v ≤ 65535 then 3 else if v ≤ 4294967295 then 5 else 9

theorem length_le_bytes (n v : Nat) : (le_bytes n v).length = n := by
  induction n generalizing v with
  | zero => simp [le_bytes]
  | succ n ih => simp [le_bytes, ih]

theorem cs_to_bytes_length (cs : CompactSize) :
    cs.to_bytes.length = csWidth cs.value := by
  unfold CompactSize.to_bytes csWidth
  split_ifs <;> simp [length_le_bytes]

theorem csWidth_pos (v : Nat) : 0 < csWidth v := by
  unfold csWidth; split_ifs <;> omega

theorem csWidth_le_9 (v : Nat) : csWidth v ≤ 9 := by
  unfold csWidth; split_ifs <;> omega

/-- Decoding an encoded magnitude, with anything appended, recovers the
magnitude and consumes exactly the table width. -/
theorem cs_decode_encode (v : Nat) (hv : v < 2 ^ 64) (r : List Nat) :
    CompactSize.from_bytes ((CompactSize.new v).to_bytes ++ r) =
      .ok (CompactSize.new v, csWidth v) := by
  by_cases h1 : v ≤ 0xFC
  · have hmod : v % 256 = v := Nat.mod_eq_of_lt (by omega)
    simp [CompactSize.to_bytes, CompactSize.new, csWidth, h1, hmod,
      CompactSize.from_bytes]
  · by_cases h2 : v ≤ 0xFFFF
    · simp only [CompactSize.to_bytes, CompactSize.new, h1, h2, if_false, if_true,
        le_bytes, csWidth]
      norm_num [CompactSize.from_bytes, le_val, CompactSize.mk.injEq]
      simp only [CompactSize.new, CompactSize.mk.injEq]
      omega
    · by_cases h3 : v ≤ 0xFFFFFFFF
      · simp only [CompactSize.to_bytes, CompactSize.new, h1, h2, h3, if_false,
          if_true, le_bytes, csWidth]
        norm_num [CompactSize.from_bytes, le_val, Nat.div_div_eq_div_mul,
          CompactSize.mk.injEq]
        simp only [CompactSize.new, CompactSize.mk.injEq]
        omega
      · simp only [CompactSize.to_bytes, CompactSize.new, h1, h2, h3, if_false,
          if_true, le_bytes, csWidth]
        norm_num [CompactSize.from_bytes, le_val, Nat.div_div_eq_div_mul,
          CompactSize.mk.injEq]
        simp only [CompactSize.new, CompactSize.mk.injEq]
        omega

/-- Any strict prefix of an encoded CompactSize fails with InsufficientBytes. -/
theorem cs_decode_trunc (v m : Nat) (hm : m < csWidth v) :
    CompactSize.from_bytes ((CompactSize.new v).to_bytes.take m) =
      .error .InsufficientBytes := by
  by_cases h1 : v ≤ 0xFC
  · have : m = 0 := by simp [csWidth, h1] at hm; omega
    subst this
    simp [CompactSize.from_bytes]
  · by_cases h2 : v ≤ 0xFFFF
    · have hm3 : m < 3 := by simpa [csWidth, h1, h2] using hm
      simp only [CompactSize.to_bytes, CompactSize.new, h1, h2, if_false, if_true,
        le_bytes]
      interval_cases m <;> norm_num [CompactSize.from_bytes]
    · by_cases h3 : v ≤ 0xFFFFFFFF
      · have hm5 : m < 5 := by simpa [csWidth, h1, h2, h3] using hm
        simp only [CompactSize.to_bytes, CompactSize.new, h1, h2, h3, if_false,
          if_true, le_bytes]
        interval_cases m <;> norm_num [CompactSize.from_bytes]
      · have hm9 : m < 9 := by simpa [csWidth, h1, h2, h3] using hm
        simp only [CompactSize.to_bytes, CompactSize.new, h1, h2, h3, if_false,
          if_true, le_bytes]
        interval_cases m <;> norm_num [CompactSize.from_bytes]

/-- Inversion for a successful CompactSize decode: the consumed count is one
of the table widths, fits in the buffer, and the result is unchanged by
appending trailing data. -/
theorem cs_ok_inv (b : List Nat) (cs : CompactSize) (c : Nat)
    (h : CompactSize.from_bytes b = .ok (cs, c)) :
    (c = 1 ∨ c = 3 ∨ c = 5 ∨ c = 9) ∧ c ≤ b.length ∧
      ∀ r, CompactSize.from_bytes (b ++ r) = .ok (cs, c) := by
  match b with
  | [] => simp [CompactSize.from_bytes] at h
  | b0 :: rest =>
    by_cases h1 : b0 ≤ 0xFC
    · simp only [CompactSize.from_bytes, if_pos h1] at h
      refine ⟨by simp_all, by simp_all <;> omega, fun r => ?_⟩
      simp only [List.cons_append, CompactSize.from_bytes, if_pos h1]
      exact h
    · by_cases h2 : b0 = 0xFD
      · match rest with
        | b1 :: b2 :: t =>
          simp only [CompactSize.from_bytes, if_neg h1, if_pos h2] at h
          refine ⟨by simp_all, by simp_all <;> omega, fun r => ?_⟩
          simp only [List.cons_append, CompactSize.from_bytes, if_neg h1, if_pos h2]
          exact h
        | [] => simp [CompactSize.from_bytes, if_neg h1, if_pos h2] at h
        | [b1] => simp [CompactSize.from_bytes, if_neg h1, if_pos h2] at h
      · by_cases h3 : b0 = 0xFE
        · match rest with
          | b1 :: b2 :: b3 :: b4 :: t =>
            simp only [CompactSize.from_bytes, if_neg h1, if_neg h2, if_pos h3] at h
            refine ⟨by simp_all, by simp_all <;> omega, fun r => ?_⟩
            simp only [List.cons_append, CompactSize.from_bytes, if_neg h1,
              if_neg h2, if_pos h3]
            exact h
          | [] => simp [CompactSize.from_bytes, if_neg h1, if_neg h2, if_pos h3] at h
          | [b1] => simp [CompactSize.from_bytes, if_neg h1, if_neg h2, if_pos h3] at h
          | [b1, b2] =>
            simp [CompactSize.from_bytes, if_neg h1, if_neg h2, if_pos h3] at h
          | [b1, b2, b3] =>
            simp [CompactSize.from_bytes, if_neg h1, if_neg h2, if_pos h3] at h
        · match rest with
          | b1 :: b2 :: b3 :: b4 :: b5 :: b6 :: b7 :: b8 :: t =>
            simp only [CompactSize.from_bytes, if_neg h1, if_neg h2, if_neg h3] at h
            refine ⟨by simp_all, by simp_all <;> omega, fun r => ?_⟩
            simp only [List.cons_append, CompactSize.from_bytes, if_neg h1,
              if_neg h2, if_neg h3]
            exact h
          | [] => simp [CompactSize.from_bytes, if_neg h1, if_neg h2, if_neg h3] at h
          | [b1] => simp [CompactSize.from_bytes, if_neg h1, if_neg h2, if_neg h3] at h
          | [b1, b2] =>
            simp [CompactSize.from_bytes, if_neg h1, if_neg h2, if_neg h3] at h
          | [b1, b2, b3] =>
            simp [CompactSize.from_bytes, if_neg h1, if_neg h2, if_neg h3] at h
          | [b1, b2, b3, b4] =>
            simp [CompactSize.from_bytes, if_neg h1, if_neg h2, if_neg h3] at h
          | [b1, b2, b3, b4, b5] =>
            simp [CompactSize.from_bytes, if_neg h1, if_neg h2, if_neg h3] at h
          | [b1, b2, b3, b4, b5, b6] =>
            simp [CompactSize.from_bytes, if_neg h1, if_neg h2, if_neg h3] at h
          | [b1, b2, b3, b4, b5, b6, b7] =>
            simp [CompactSize.from_bytes, if_neg h1, if_neg h2, if_neg h3] at h

/-- A successful CompactSize decode is unchanged by appending trailing data. -/
theorem cs_decode_append (b r : List Nat) (cs : CompactSize) (c : Nat)
    (h : CompactSize.from_bytes b = .ok (cs, c)) :
    CompactSize.from_bytes (b ++ r) = .ok (cs, c) :=
  (cs_ok_inv b cs c h).2.2 r

/-- A successful CompactSize decode consumes at most the buffer. -/
theorem cs_ok_consumed (b : List Nat) (cs : CompactSize) (c : Nat)
    (h : CompactSize.from_bytes b = .ok (cs, c)) : c ≤ b.length :=
  (cs_ok_inv b cs c h).2.1

/-- CompactSize decoding either succeeds or reports InsufficientBytes. -/
theorem cs_ok_or_insufficient (b : List Nat) :
    (∃ p, CompactSize.from_bytes b = .ok p) ∨
      CompactSize.from_bytes b = .error .InsufficientBytes := by
  match b with
  | [] => right; simp [CompactSize.from_bytes]
  | b0 :: rest =>
    by_cases h1 : b0 ≤ 0xFC
    · left; exact ⟨(CompactSize.new b0, 1), by simp [CompactSize.from_bytes, if_pos h1]⟩
    · by_cases h2 : b0 = 0xFD
      · match rest with
        | b1 :: b2 :: t =>
          left
          exact ⟨(CompactSize.new (le_val [b1, b2]), 3),
            by simp [CompactSize.from_bytes, if_neg h1, if_pos h2]⟩
        | [] => right; simp [CompactSize.from_bytes, if_neg h1, if_pos h2]
        | [b1] => right; simp [CompactSize.from_bytes, if_neg h1, if_pos h2]
      · by_cases h3 : b0 = 0xFE
        · match rest with
          | b1 :: b2 :: b3 :: b4 :: t =>
            left
            exact ⟨(CompactSize.new (le_val [b1, b2, b3, b4]), 5),
              by simp [CompactSize.from_bytes, if_neg h1, if_neg h2, if_pos h3]⟩
          | [] => right; simp [CompactSize.from_bytes, if_neg h1, if_neg h2, if_pos h3]
          | [b1] =>
            right; simp [CompactSize.from_bytes, if_neg h1, if_neg h2, if_pos h3]
          | [b1, b2] =>
            right; simp [CompactSize.from_bytes, if_neg h1, if_neg h2, if_pos h3]
          | [b1, b2, b3] =>
            right; simp [CompactSize.from_bytes, if_neg h1, if_neg h2, if_pos h3]
        · match rest with
          | b1 :: b2 :: b3 :: b4 :: b5 :: b6 :: b7 :: b8 :: t =>
            left
            exact ⟨(CompactSize.new (le_val [b1, b2, b3, b4, b5, b6, b7, b8]), 9),
              by simp [CompactSize.from_bytes, if_neg h1, if_neg h2, if_neg h3]⟩
          | [] => right; simp [CompactSize.from_bytes, if_neg h1, if_neg h2, if_neg h3]
          | [b1] =>
            right; simp [CompactSize.from_bytes, if_neg h1, if_neg h2, if_neg h3]
          | [b1, b2] =>
            right; simp [CompactSize.from_bytes, if_neg h1, if_neg h2, if_neg h3]
          | [b1, b2, b3] =>
            right; simp [CompactSize.from_bytes, if_neg h1, if_neg h2, if_neg h3]
          | [b1, b2, b3, b4] =>
            right; simp [CompactSize.from_bytes, if_neg h1, if_neg h2, if_neg h3]
          | [b1, b2, b3, b4, b5] =>
            right; simp [CompactSize.from_bytes, if_neg h1, if_neg h2, if_neg h3]
          | [b1, b2, b3, b4, b5, b6] =>
            right; simp [CompactSize.from_bytes, if_neg h1, if_neg h2, if_neg h3]
          | [b1, b2, b3, b4, b5, b6, b7] =>
            right; simp [CompactSize.from_bytes, if_neg h1, if_neg h2, if_neg h3]

/-- Mirrors `struct Txid(pub [u8; 32])`. -/
structure Txid where
  bytes : List Nat
deriving DecidableEq

/-- Mirrors `struct OutPoint { txid: Txid, vout: u32 }`. -/
structure OutPoint where
  txid : Txid
  vout : Nat
deriving DecidableEq

/-- The Rust domain of `OutPoint`: a 32-byte txid and a u32 vout. -/
def OutPoint.WF (op : OutPoint) : Prop :=
  op.txid.bytes.length = 32 ∧ op.vout < 2 ^ 32

instance (op : OutPoint) : Decidable op.WF := by
  unfold OutPoint.WF; infer_instance

/-- Mirrors `OutPoint::new`. -/
def OutPoint.new (txid : List Nat) (vout : Nat) : OutPoint := ⟨⟨txid⟩, vout⟩

/-- Mirrors `OutPoint::to_bytes`: txid bytes verbatim, then vout as 4-byte LE. -/
def OutPoint.to_bytes (op : OutPoint) : List Nat :=
  op.txid.bytes ++ le_bytes 4 op.vout

/-- Mirrors `OutPoint::from_bytes`: requires 36 bytes, reads txid from
positions 0..32 and vout from 32..36, consumes 36. -/
def OutPoint.from_bytes (bytes : List Nat) : Except BitcoinError (OutPoint × Nat) :=
  if bytes.length < 36 then .error .InsufficientBytes
  else .ok (OutPoint.new (bytes.take 32) (le_val ((bytes.drop 32).take 4)), 36)

/-- Mirrors `struct Script { bytes: Vec<u8> }`. -/
structure Script where
  bytes : List Nat
deriving DecidableEq

/-- The Rust domain of `Script`: a `Vec<u8>` body, whose length is bounded by
the allocation limit isize::MAX, below 2^63. -/
def Script.WF (s : Script) : Prop := s.bytes.length < 2 ^ 63

instance (s : Script) : Decidable s.WF := by
  unfold Script.WF; infer_instance

/-- Mirrors `Script::new`. -/
def Script.new (bytes : List Nat) : Script := ⟨bytes⟩

/-- Mirrors `Script::to_bytes`: CompactSize length prefix, then the body. -/
def Script.to_bytes (s : Script) : List Nat :=
  (CompactSize.new s.bytes.length).to_bytes ++ s.bytes

/-- Outcome of a decoder whose Rust original can also panic: a returned
value with its consumed count, a returned `BitcoinError`, or a panic
(process abort, no value returned). -/
inductive DecodeResult (α : Type) where
  | ok : α → DecodeResult α
  | error : BitcoinError → DecodeResult α
  | panic : DecodeResult α
deriving DecidableEq

/-- Mirrors `Script::from_bytes`: decode the CompactSize prefix (propagating
its error), require the declared body to be present, and consume
prefix + declared length. The bound `len_bytes + total_len` is computed in
usize: when the sum reaches 2^64 it overflows, which panics in debug builds
at the addition, and in release builds wraps to a value below `len_bytes` so
that the slice `bytes[len_bytes..wrapped]` panics; both outcomes are the
`panic` result. -/
def Script.from_bytes (bytes : List Nat) : DecodeResult (Script × Nat) :=
  match CompactSize.from_bytes bytes with
  | .error e => .error e
  | .ok (lenCS, lenBytes) =>
    if 2 ^ 64 ≤ lenBytes + lenCS.value then .panic
    else if bytes.length < lenBytes + lenCS.value then .error .InsufficientBytes
    else .ok (Script.new ((bytes.drop lenBytes).take lenCS.value),
      lenBytes + lenCS.value)

/-- Mirrors `struct TransactionInput`. -/
structure TransactionInput where
  previous_output : OutPoint
  script_sig : Script
  sequence : Nat
deriving DecidableEq

/-- The Rust domain of `TransactionInput`. -/
def TransactionInput.WF (i : TransactionInput) : Prop :=
  i.previous_output.WF ∧ i.script_sig.WF ∧ i.sequence < 2 ^ 32

instance (i : TransactionInput) : Decidable i.WF := by
  unfold TransactionInput.WF; infer_instance

/-- Mirrors `TransactionInput::new`. -/
def TransactionInput.new (previous_output : OutPoint) (script_sig : Script)
    (sequence : Nat) : TransactionInput :=
  ⟨previous_output, script_sig, sequence⟩

/-- Mirrors `TransactionInput::to_bytes`: outpoint, script, sequence LE. -/
def TransactionInput.to_bytes (i : TransactionInput) : List Nat :=
  i.previous_output.to_bytes ++ i.script_sig.to_bytes ++ le_bytes 4 i.sequence

/-- Mirrors `TransactionInput::from_bytes`: OutPoint, then Script on the
remaining suffix, then 4 sequence bytes, each error propagated (and a panic
in the Script decoder aborting the whole call). -/
def TransactionInput.from_bytes (bytes : List Nat) :
    DecodeResult (TransactionInput × Nat) :=
  match OutPoint.from_bytes bytes with
  | .error e => .error e
  | .ok (prev_out, prev_len) =>
    match Script.from_bytes (bytes.drop prev_len) with
    | .panic => .panic
    | .error e => .error e
    | .ok (script, script_len) =>
      if bytes.length < prev_len + script_len + 4 then .error .InsufficientBytes
      else .ok (TransactionInput.new prev_out script
          (le_val ((bytes.drop (prev_len + script_len)).take 4)),
        prev_len + script_len + 4)

/-- Mirrors `struct BitcoinTransaction`. -/
structure BitcoinTransaction where
  version : Nat
  inputs : List TransactionInput
  lock_time : Nat
deriving DecidableEq

/-- The Rust domain of `BitcoinTransaction`: u32 fields and a `Vec` of
inputs, whose length is below the 2^63 allocation limit. -/
def BitcoinTransaction.WF (tx : BitcoinTransaction) : Prop :=
  tx.version < 2 ^ 32 ∧ tx.lock_time < 2 ^ 32 ∧ tx.inputs.length < 2 ^ 63 ∧
    ∀ i ∈ tx.inputs, i.WF

instance (tx : BitcoinTransaction) : Decidable tx.WF := by
  unfold BitcoinTransaction.WF; infer_instance

/-- Mirrors `BitcoinTransaction::new`. -/
def BitcoinTransaction.new (version : Nat) (inputs : List TransactionInput)
    (lock_time : Nat) : BitcoinTransaction :=
  ⟨version, inputs, lock_time⟩

/-- Wire bytes of a list of inputs, in order (the encoding loop body). -/
def inputsBytes (l : List TransactionInput) : List Nat :=
  (l.map TransactionInput.to_bytes).join

/-- Mirrors `BitcoinTransaction::to_bytes`: version LE, CompactSize input
count, each input in order, lock_time LE. -/
def BitcoinTransaction.to_bytes (tx : BitcoinTransaction) : List Nat :=
  le_bytes 4 tx.version ++ (CompactSize.new tx.inputs.length).to_bytes ++
    inputsBytes tx.inputs ++ le_bytes 4 tx.lock_time

/-- The decoding loop of `BitcoinTransaction::from_bytes`: n iterations, each
decoding one input at the cursor and advancing it, propagating any failure
(a panic in an input aborts the whole loop). -/
def decodeInputs : Nat → List Nat → Nat →
    DecodeResult (List TransactionInput × Nat)
  | 0, _, cursor => .ok ([], cursor)
  | n + 1, bytes, cursor =>
    match TransactionInput.from_bytes (bytes.drop cursor) with
    | .panic => .panic
    | .error e => .error e
    | .ok (input, used) =>
      match decodeInputs n bytes (cursor + used) with
      | .panic => .panic
      | .error e => .error e
      | .ok (rest, final) => .ok (input :: rest, final)

/-- Mirrors `BitcoinTransaction::from_bytes`: 4 version bytes, CompactSize
input count decoded from position 4, the input loop from position
4 + count width, then 4 lock_time bytes; consumed is the final cursor + 4. -/
def BitcoinTransaction.from_bytes (bytes : List Nat) :
    DecodeResult (BitcoinTransaction × Nat) :=
  if bytes.length < 4 then .error .InsufficientBytes
  else
    match CompactSize.from_bytes (bytes.drop 4) with
    | .error e => .error e
    | .ok (input_count, offset0) =>
      match decodeInputs input_count.value bytes (offset0 + 4) with
      | .panic => .panic
      | .error e => .error e
      | .ok (inputs, cursor) =>
        if bytes.length < cursor + 4 then .error .InsufficientBytes
        else .ok (BitcoinTransaction.new (le_val (bytes.take 4)) inputs
            (le_val ((bytes.drop cursor).take 4)),
          cursor + 4)

theorem le_val_le_bytes (n v : Nat) : le_val (le_bytes n v) = v % 256 ^ n := by
  induction n generalizing v with
  | zero => simp [le_bytes, le_val, Nat.mod_one]
  | succ n ih =>
    rw [le_bytes, le_val, ih, pow_succ, mul_comm (256 ^ n) 256, Nat.mod_mul]

theorem le_val_le_bytes_of_lt (n v : Nat) (h : v < 256 ^ n) :
    le_val (le_bytes n v) = v := by
  rw [le_val_le_bytes, Nat.mod_eq_of_lt h]

theorem lt_256_pow_4 (v : Nat) (h : v < 2 ^ 32) : v < 256 ^ 4 := by
  have h1 : (2 : Nat) ^ 32 = 4294967296 := by norm_num
  have h2 : (256 : Nat) ^ 4 = 4294967296 := by norm_num
  omega

theorem op_to_bytes_length (op : OutPoint) (h : op.txid.bytes.length = 32) :
    op.to_bytes.length = 36 := by
  simp [OutPoint.to_bytes, length_le_bytes, h]

/-- Decoding an encoded OutPoint, with anything appended, recovers it and
consumes 36 bytes. -/
theorem op_decode_encode (op : OutPoint) (h : op.WF) (r : List Nat) :
    OutPoint.from_bytes (op.to_bytes ++ r) = .ok (op, 36) := by
  obtain ⟨h32, hv⟩ := h
  have hlen : (op.to_bytes ++ r).length = 36 + r.length := by
    simp [op_to_bytes_length op h32]
  rw [OutPoint.from_bytes, if_neg (by omega)]
  rw [OutPoint.to_bytes, List.append_assoc, List.take_left' h32,
    List.drop_left' h32, List.take_left' (length_le_bytes 4 op.vout),
    le_val_le_bytes_of_lt 4 op.vout (lt_256_pow_4 op.vout hv)]
  rfl

/-- Any buffer shorter than 36 bytes fails OutPoint decoding; in particular
any strict prefix of an encoded OutPoint does. -/
theorem op_decode_short (b : List Nat) (h : b.length < 36) :
    OutPoint.from_bytes b = .error .InsufficientBytes := by
  rw [OutPoint.from_bytes, if_pos h]

/-- Inversion for a successful OutPoint decode. -/
theorem op_ok_inv (b : List Nat) (op : OutPoint) (c : Nat)
    (h : OutPoint.from_bytes b = .ok (op, c)) :
    c = 36 ∧ 36 ≤ b.length ∧ ∀ r, OutPoint.from_bytes (b ++ r) = .ok (op, c) := by
  rw [OutPoint.from_bytes] at h
  by_cases hl : b.length < 36
  · rw [if_pos hl] at h; exact absurd h (by simp)
  · rw [if_neg hl] at h
    simp only [Except.ok.injEq, Prod.mk.injEq] at h
    obtain ⟨hop, hc⟩ := h
    refine ⟨hc.symm, by omega, fun r => ?_⟩
    rw [OutPoint.from_bytes, if_neg (by simp; omega)]
    rw [List.take_append_of_le_length (by omega),
      List.drop_append_of_le_length (by omega),
      List.take_append_of_le_length (by simp [List.length_drop]; omega)]
    rw [hop, hc]

/-- OutPoint decoding either succeeds or reports InsufficientBytes. -/
theorem op_ok_or_insufficient (b : List Nat) :
    (∃ p, OutPoint.from_bytes b = .ok p) ∨
      OutPoint.from_bytes b = .error .InsufficientBytes := by
  rw [OutPoint.from_bytes]
  by_cases hl : b.length < 36
  · right; rw [if_pos hl]
  · left; exact ⟨_, by rw [if_neg hl]⟩

theorem script_to_bytes_length (s : Script) :
    s.to_bytes.length = csWidth s.bytes.length + s.bytes.length := by
  simp [Script.to_bytes, cs_to_bytes_length, CompactSize.new]

/-- Decoding an encoded Script, with anything appended, recovers it and
consumes prefix width + body length. -/
theorem script_decode_encode (s : Script) (h : s.WF) (r : List Nat) :
    Script.from_bytes (s.to_bytes ++ r) = .ok (s, s.to_bytes.length) := by
  have h63 : s.bytes.length < 2 ^ 63 := h
  have h64 : s.bytes.length < 2 ^ 64 := by omega
  have h9 := csWidth_le_9 s.bytes.length
  have hW : ((CompactSize.new s.bytes.length).to_bytes).length =
      csWidth s.bytes.length := cs_to_bytes_length _
  rw [Script.to_bytes, List.append_assoc]
  simp only [Script.from_bytes, cs_decode_encode s.bytes.length h64 (s.bytes ++ r)]
  have hlen : ((CompactSize.new s.bytes.length).to_bytes ++ (s.bytes ++ r)).length =
      csWidth s.bytes.length + s.bytes.length + r.length := by
    simp [hW]; omega
  rw [if_neg (by simp only [CompactSize.new]; omega)]
  rw [if_neg (by simp only [CompactSize.new] at hlen ⊢; omega)]
  rw [List.drop_left' hW, List.take_append_of_le_length (by simp [CompactSize.new]),
    List.take_of_length_le (by simp [CompactSize.new])]
  simp [script_to_bytes_length, cs_to_bytes_length, CompactSize.new, Script.new]

/-- Any strict prefix of an encoded Script fails with InsufficientBytes. -/
theorem script_decode_trunc (s : Script) (h : s.WF) (m : Nat)
    (hm : m < s.to_bytes.length) :
    Script.from_bytes (s.to_bytes.take m) = .error .InsufficientBytes := by
  have h63 : s.bytes.length < 2 ^ 63 := h
  have h64 : s.bytes.length < 2 ^ 64 := by omega
  have h9 := csWidth_le_9 s.bytes.length
  have hW : ((CompactSize.new s.bytes.length).to_bytes).length =
      csWidth s.bytes.length := cs_to_bytes_length _
  have htot := script_to_bytes_length s
  by_cases hmw : m < csWidth s.bytes.length
  · rw [Script.to_bytes, List.take_append_of_le_length (by omega)]
    simp only [Script.from_bytes, cs_decode_trunc s.bytes.length m hmw]
  · rw [Script.to_bytes, List.take_append_eq_append_take,
      List.take_of_length_le (by omega)]
    simp only [Script.from_bytes,
      cs_decode_encode s.bytes.length h64 (s.bytes.take (m - (CompactSize.new s.bytes.length).to_bytes.length))]
    rw [if_neg (by simp only [CompactSize.new]; omega)]
    rw [if_pos]
    simp only [CompactSize.new, cs_to_bytes_length, List.length_append,
      List.length_take]
    simp only [CompactSize.new] at htot hm ⊢
    omega

/-- Inversion for a successful Script decode. -/
theorem script_ok_inv (b : List Nat) (s : Script) (c : Nat)
    (h : Script.from_bytes b = .ok (s, c)) :
    c ≤ b.length ∧ ∀ r, Script.from_bytes (b ++ r) = .ok (s, c) := by
  cases hcs : CompactSize.from_bytes b with
  | error e => simp [Script.from_bytes, hcs] at h
  | ok p =>
    obtain ⟨cs0, w⟩ := p
    simp only [Script.from_bytes, hcs] at h
    by_cases hov : 2 ^ 64 ≤ w + cs0.value
    · rw [if_pos hov] at h; exact absurd h (by simp)
    · rw [if_neg hov] at h
      by_cases hl : b.length < w + cs0.value
      · rw [if_pos hl] at h; exact absurd h (by simp)
      · rw [if_neg hl] at h
        simp only [DecodeResult.ok.injEq, Prod.mk.injEq] at h
        obtain ⟨hs, hc⟩ := h
        have hw := cs_ok_consumed b cs0 w hcs
        refine ⟨by omega, fun r => ?_⟩
        simp only [Script.from_bytes, cs_decode_append b r cs0 w hcs]
        rw [if_neg hov]
        rw [if_neg (by simp; omega)]
        rw [List.drop_append_of_le_length (by omega),
          List.take_append_of_le_length (by simp [List.length_drop]; omega)]
        rw [hs, hc]

/-- Script decoding either succeeds, reports InsufficientBytes, or panics on
a declared length whose usize bound computation overflows. -/
theorem script_ok_insufficient_panic (b : List Nat) :
    (∃ p, Script.from_bytes b = .ok p) ∨
      Script.from_bytes b = .error .InsufficientBytes ∨
      Script.from_bytes b = .panic := by
  rcases cs_ok_or_insufficient b with ⟨⟨cs0, w⟩, hcs⟩ | hcs
  · simp only [Script.from_bytes, hcs]
    by_cases hov : 2 ^ 64 ≤ w + cs0.value
    · right; right; rw [if_pos hov]
    · rw [if_neg hov]
      by_cases hl : b.length < w + cs0.value
      · right; left; rw [if_pos hl]
      · left; exact ⟨_, by rw [if_neg hl]⟩
  · right; left; simp only [Script.from_bytes, hcs]

theorem ti_to_bytes_length (i : TransactionInput)
    (h : i.previous_output.txid.bytes.length = 32) :
    i.to_bytes.length = 36 + i.script_sig.to_bytes.length + 4 := by
  simp [TransactionInput.to_bytes, op_to_bytes_length _ h, length_le_bytes]
  omega

/-- Decoding an encoded TransactionInput, with anything appended, recovers it
and consumes its full encoded length. -/
theorem ti_decode_encode (i : TransactionInput) (h : i.WF) (r : List Nat) :
    TransactionInput.from_bytes (i.to_bytes ++ r) = .ok (i, i.to_bytes.length) := by
  obtain ⟨hop, hs, hseq⟩ := h
  have h32 : i.previous_output.txid.bytes.length = 32 := hop.1
  have hopl : i.previous_output.to_bytes.length = 36 := op_to_bytes_length _ h32
  have hbuf : i.to_bytes ++ r =
      i.previous_output.to_bytes ++
        (i.script_sig.to_bytes ++ (le_bytes 4 i.sequence ++ r)) := by
    simp [TransactionInput.to_bytes, List.append_assoc]
  rw [hbuf]
  simp only [TransactionInput.from_bytes,
    op_decode_encode i.previous_output hop
      (i.script_sig.to_bytes ++ (le_bytes 4 i.sequence ++ r))]
  rw [List.drop_left' hopl]
  simp only [script_decode_encode i.script_sig hs (le_bytes 4 i.sequence ++ r)]
  have hL : (i.previous_output.to_bytes ++
      (i.script_sig.to_bytes ++ (le_bytes 4 i.sequence ++ r))).length =
      36 + i.script_sig.to_bytes.length + 4 + r.length := by
    simp [hopl, length_le_bytes]; omega
  rw [if_neg (by omega)]
  have hdrop : (i.previous_output.to_bytes ++
      (i.script_sig.to_bytes ++ (le_bytes 4 i.sequence ++ r))).drop
        (36 + i.script_sig.to_bytes.length) = le_bytes 4 i.sequence ++ r := by
    rw [show i.previous_output.to_bytes ++
        (i.script_sig.to_bytes ++ (le_bytes 4 i.sequence ++ r)) =
        (i.previous_output.to_bytes ++ i.script_sig.to_bytes) ++
          (le_bytes 4 i.sequence ++ r) from (List.append_assoc _ _ _).symm]
    exact List.drop_left' (by simp [hopl])
  rw [hdrop, List.take_left' (length_le_bytes 4 i.sequence),
    le_val_le_bytes_of_lt 4 _ (lt_256_pow_4 _ hseq),
    ti_to_bytes_length i h32]
  rfl

/-- Any strict prefix of an encoded TransactionInput fails with
InsufficientBytes. -/
theorem ti_decode_trunc (i : TransactionInput) (h : i.WF) (m : Nat)
    (hm : m < i.to_bytes.length) :
    TransactionInput.from_bytes (i.to_bytes.take m) = .error .InsufficientBytes := by
  obtain ⟨hop, hs, hseq⟩ := h
  have h32 : i.previous_output.txid.bytes.length = 32 := hop.1
  have hopl : i.previous_output.to_bytes.length = 36 := op_to_bytes_length _ h32
  have htot := ti_to_bytes_length i h32
  by_cases hm36 : m < 36
  · have hshort : (i.to_bytes.take m).length < 36 := by
      have := List.length_take_le m i.to_bytes
      omega
    simp only [TransactionInput.from_bytes, op_decode_short _ hshort]
  · have hsplit : i.to_bytes = i.previous_output.to_bytes ++
        (i.script_sig.to_bytes ++ le_bytes 4 i.sequence) := by
      simp [TransactionInput.to_bytes, List.append_assoc]
    by_cases hms : m - 36 < i.script_sig.to_bytes.length
    · have htake : i.to_bytes.take m = i.previous_output.to_bytes ++
          i.script_sig.to_bytes.take (m - 36) := by
        rw [hsplit, List.take_append_eq_append_take,
          List.take_of_length_le (by omega),
          List.take_append_of_le_length (by omega), hopl]
      rw [htake]
      simp only [TransactionInput.from_bytes,
        op_decode_encode i.previous_output hop (i.script_sig.to_bytes.take (m - 36))]
      rw [List.drop_left' hopl]
      simp only [script_decode_trunc i.script_sig hs (m - 36) (by omega)]
    · have htake : i.to_bytes.take m = i.previous_output.to_bytes ++
          (i.script_sig.to_bytes ++
            (le_bytes 4 i.sequence).take (m - 36 - i.script_sig.to_bytes.length)) := by
        rw [hsplit, List.take_append_eq_append_take,
          List.take_of_length_le (by omega),
          List.take_append_eq_append_take,
          List.take_of_length_le (by omega), hopl]
      rw [htake]
      simp only [TransactionInput.from_bytes,
        op_decode_encode i.previous_output hop
          (i.script_sig.to_bytes ++
            (le_bytes 4 i.sequence).take (m - 36 - i.script_sig.to_bytes.length))]
      rw [List.drop_left' hopl]
      simp only [script_decode_encode i.script_sig hs
        ((le_bytes 4 i.sequence).take (m - 36 - i.script_sig.to_bytes.length))]
      rw [if_pos]
      simp only [List.length_append, List.length_take, length_le_bytes, hopl]
      omega

/-- Inversion for a successful TransactionInput decode. -/
theorem ti_ok_inv (b : List Nat) (i : TransactionInput) (c : Nat)
    (h : TransactionInput.from_bytes b = .ok (i, c)) :
    c ≤ b.length ∧ 36 ≤ b.length ∧
      ∀ r, TransactionInput.from_bytes (b ++ r) = .ok (i, c) := by
  cases hop : OutPoint.from_bytes b with
  | error e => simp [TransactionInput.from_bytes, hop] at h
  | ok p =>
    obtain ⟨op, pl⟩ := p
    obtain ⟨hpl, hb36, hopapp⟩ := op_ok_inv b op pl hop
    subst hpl
    simp only [TransactionInput.from_bytes, hop] at h
    cases hsc : Script.from_bytes (b.drop 36) with
    | panic => simp only [hsc] at h; exact absurd h (by simp)
    | error e => simp only [hsc] at h; exact absurd h (by simp)
    | ok q =>
      obtain ⟨script, sl⟩ := q
      obtain ⟨hsl, hscapp⟩ := script_ok_inv _ script sl hsc
      have hdl : (b.drop 36).length = b.length - 36 := by simp
      simp only [hsc] at h
      by_cases hl : b.length < 36 + sl + 4
      · rw [if_pos hl] at h; exact absurd h (by simp)
      · rw [if_neg hl] at h
        simp only [DecodeResult.ok.injEq, Prod.mk.injEq] at h
        obtain ⟨hi, hc⟩ := h
        refine ⟨by omega, hb36, fun r => ?_⟩
        simp only [TransactionInput.from_bytes, hopapp r]
        rw [List.drop_append_of_le_length (by omega)]
        simp only [hscapp r]
        rw [if_neg (by simp; omega)]
        rw [List.drop_append_of_le_length (by omega),
          List.take_append_of_le_length (by simp [List.length_drop]; omega)]
        rw [hi, hc]

/-- TransactionInput decoding either succeeds, reports InsufficientBytes, or
panics inside the Script decoder. -/
theorem ti_ok_insufficient_panic (b : List Nat) :
    (∃ p, TransactionInput.from_bytes b = .ok p) ∨
      TransactionInput.from_bytes b = .error .InsufficientBytes ∨
      TransactionInput.from_bytes b = .panic := by
  rcases op_ok_or_insufficient b with ⟨⟨op, pl⟩, hop⟩ | hop
  · obtain ⟨hpl, hb36, _⟩ := op_ok_inv b op pl hop
    subst hpl
    rcases script_ok_insufficient_panic (b.drop 36) with ⟨⟨script, sl⟩, hsc⟩ | hsc | hsc
    · simp only [TransactionInput.from_bytes, hop, hsc]
      by_cases hl : b.length < 36 + sl + 4
      · right; left; rw [if_pos hl]
      · left; exact ⟨_, by rw [if_neg hl]⟩
    · right; left; simp only [TransactionInput.from_bytes, hop, hsc]
    · right; right; simp only [TransactionInput.from_bytes, hop, hsc]
  · right; left; simp only [TransactionInput.from_bytes, hop]

theorem inputsBytes_cons (i : TransactionInput) (rest : List TransactionInput) :
    inputsBytes (i :: rest) = i.to_bytes ++ inputsBytes rest := by
  simp [inputsBytes]

/-- The decoding loop, run at the start of the encoded inputs region, returns
exactly the encoded inputs and leaves the cursor at the end of that region. -/
theorem decodeInputs_encode (inputs : List TransactionInput)
    (h : ∀ i ∈ inputs, i.WF) :
    ∀ (pre tail bytes : List Nat), bytes = pre ++ inputsBytes inputs ++ tail →
      decodeInputs inputs.length bytes pre.length =
        .ok (inputs, pre.length + (inputsBytes inputs).length) := by
  induction inputs with
  | nil =>
    intro pre tail bytes hb
    simp [decodeInputs, inputsBytes]
  | cons i rest ih =>
    intro pre tail bytes hb
    have hiWF : i.WF := h i (by simp)
    have hrest : ∀ j ∈ rest, j.WF := fun j hj => h j (by simp [hj])
    rw [inputsBytes_cons] at hb ⊢
    have hdrop : bytes.drop pre.length = i.to_bytes ++ (inputsBytes rest ++ tail) := by
      rw [hb]
      simp only [List.append_assoc]
      rw [List.drop_left]
    have ihh := ih hrest (pre ++ i.to_bytes) tail bytes
      (by rw [hb]; simp [List.append_assoc])
    rw [List.length_append] at ihh
    simp only [List.length_cons, decodeInputs, hdrop,
      ti_decode_encode i hiWF (inputsBytes rest ++ tail), ihh]
    simp [List.length_append, Nat.add_assoc]

/-- The decoding loop on a truncated inputs region fails with
InsufficientBytes. -/
theorem decodeInputs_trunc (inputs : List TransactionInput)
    (h : ∀ i ∈ inputs, i.WF) :
    ∀ (pre bytes : List Nat) (m : Nat), m < (inputsBytes inputs).length →
      bytes = pre ++ (inputsBytes inputs).take m →
      decodeInputs inputs.length bytes pre.length = .error .InsufficientBytes := by
  induction inputs with
  | nil =>
    intro pre bytes m hm hb
    simp [inputsBytes] at hm
  | cons i rest ih =>
    intro pre bytes m hm hb
    have hiWF : i.WF := h i (by simp)
    have hrest : ∀ j ∈ rest, j.WF := fun j hj => h j (by simp [hj])
    rw [inputsBytes_cons] at hm hb
    simp only [List.length_append] at hm
    by_cases hmi : m < i.to_bytes.length
    · have htake : (i.to_bytes ++ inputsBytes rest).take m = i.to_bytes.take m :=
        List.take_append_of_le_length (by omega)
      have hdrop : bytes.drop pre.length = i.to_bytes.take m := by
        rw [hb, htake, List.drop_left]
      simp only [List.length_cons, decodeInputs, hdrop,
        ti_decode_trunc i hiWF m hmi]
    · have htake : (i.to_bytes ++ inputsBytes rest).take m =
          i.to_bytes ++ (inputsBytes rest).take (m - i.to_bytes.length) := by
        rw [List.take_append_eq_append_take, List.take_of_length_le (by omega)]
      have hdrop : bytes.drop pre.length =
          i.to_bytes ++ (inputsBytes rest).take (m - i.to_bytes.length) := by
        rw [hb, htake, List.drop_left]
      have ihh := ih hrest (pre ++ i.to_bytes) bytes (m - i.to_bytes.length)
        (by omega) (by rw [hb, htake, ← List.append_assoc])
      rw [List.length_append] at ihh
      simp only [List.length_cons, decodeInputs, hdrop,
        ti_decode_encode i hiWF ((inputsBytes rest).take (m - i.to_bytes.length)),
        ihh]

/-- A successful run of the decoding loop is unchanged by appending trailing
data to the buffer. -/
theorem decodeInputs_append (n : Nat) :
    ∀ (b r : List Nat) (cur : Nat) (l : List TransactionInput) (fin : Nat),
      decodeInputs n b cur = .ok (l, fin) →
      decodeInputs n (b ++ r) cur = .ok (l, fin) := by
  induction n with
  | zero =>
    intro b r cur l fin h
    simpa [decodeInputs] using h
  | succ n ih =>
    intro b r cur l fin h
    cases hti : TransactionInput.from_bytes (b.drop cur) with
    | panic => simp [decodeInputs, hti] at h
    | error e => simp [decodeInputs, hti] at h
    | ok p =>
      obtain ⟨inp, used⟩ := p
      simp only [decodeInputs, hti] at h
      obtain ⟨husd, h36, htiapp⟩ := ti_ok_inv _ inp used hti
      have hdl : (b.drop cur).length = b.length - cur := by simp
      have hcur : cur ≤ b.length := by omega
      have hdrop : (b ++ r).drop cur = b.drop cur ++ r :=
        List.drop_append_of_le_length hcur
      cases hrec : decodeInputs n b (cur + used) with
      | panic => simp only [hrec] at h; exact absurd h (by simp)
      | error e => simp only [hrec] at h; exact absurd h (by simp)
      | ok q =>
        obtain ⟨rest, fin'⟩ := q
        simp only [hrec, DecodeResult.ok.injEq, Prod.mk.injEq] at h
        obtain ⟨hl, hf⟩ := h
        simp only [decodeInputs, hdrop, htiapp r,
          ih b r (cur + used) rest fin' hrec]
        rw [hl, hf]

/-- A successful run of the decoding loop keeps the cursor inside the buffer
and never moves it backwards. -/
theorem decodeInputs_le (n : Nat) :
    ∀ (b : List Nat) (cur : Nat) (l : List TransactionInput) (fin : Nat),
      decodeInputs n b cur = .ok (l, fin) → cur ≤ b.length →
      fin ≤ b.length ∧ cur ≤ fin := by
  induction n with
  | zero =>
    intro b cur l fin h hc
    simp only [decodeInputs, DecodeResult.ok.injEq, Prod.mk.injEq] at h
    obtain ⟨_, hf⟩ := h
    omega
  | succ n ih =>
    intro b cur l fin h hc
    cases hti : TransactionInput.from_bytes (b.drop cur) with
    | panic => simp [decodeInputs, hti] at h
    | error e => simp [decodeInputs, hti] at h
    | ok p =>
      obtain ⟨inp, used⟩ := p
      simp only [decodeInputs, hti] at h
      obtain ⟨husd, h36, _⟩ := ti_ok_inv _ inp used hti
      have hdl : (b.drop cur).length = b.length - cur := by simp
      cases hrec : decodeInputs n b (cur + used) with
      | panic => simp only [hrec] at h; exact absurd h (by simp)
      | error e => simp only [hrec] at h; exact absurd h (by simp)
      | ok q =>
        obtain ⟨rest, fin'⟩ := q
        simp only [hrec, DecodeResult.ok.injEq, Prod.mk.injEq] at h
        obtain ⟨_, hf⟩ := h
        have := ih b (cur + used) rest fin' hrec (by omega)
        omega

/-- The decoding loop either succeeds, reports InsufficientBytes, or panics
inside an input's Script decoder. -/
theorem decodeInputs_ok_insufficient_panic (n : Nat) :
    ∀ (b : List Nat) (cur : Nat),
      (∃ p, decodeInputs n b cur = .ok p) ∨
        decodeInputs n b cur = .error .InsufficientBytes ∨
        decodeInputs n b cur = .panic := by
  induction n with
  | zero =>
    intro b cur
    left; exact ⟨([], cur), by simp [decodeInputs]⟩
  | succ n ih =>
    intro b cur
    rcases ti_ok_insufficient_panic (b.drop cur) with ⟨⟨inp, used⟩, hti⟩ | hti | hti
    · rcases ih b (cur + used) with ⟨⟨rest, fin⟩, hrec⟩ | hrec | hrec
      · left; exact ⟨(inp :: rest, fin), by simp only [decodeInputs, hti, hrec]⟩
      · right; left; simp only [decodeInputs, hti, hrec]
      · right; right; simp only [decodeInputs, hti, hrec]
    · right; left; simp only [decodeInputs, hti]
    · right; right; simp only [decodeInputs, hti]

theorem tx_to_bytes_length (tx : BitcoinTransaction) :
    tx.to_bytes.length =
      4 + csWidth tx.inputs.length + (inputsBytes tx.inputs).length + 4 := by
  simp [BitcoinTransaction.to_bytes, length_le_bytes, cs_to_bytes_length,
    CompactSize.new]
  omega

/-- Decoding an encoded transaction, with anything appended, recovers it and
consumes its full encoded length. -/
theorem tx_decode_encode (tx : BitcoinTransaction) (h : tx.WF) (r : List Nat) :
    BitcoinTransaction.from_bytes (tx.to_bytes ++ r) =
      .ok (tx, tx.to_bytes.length) := by
  obtain ⟨hver, hlock, hcnt, hin⟩ := h
  have hcnt64 : tx.inputs.length < 2 ^ 64 := by omega
  have hW : ((CompactSize.new tx.inputs.length).to_bytes).length =
      csWidth tx.inputs.length := cs_to_bytes_length _
  have hbl : (tx.to_bytes ++ r).length =
      4 + csWidth tx.inputs.length + (inputsBytes tx.inputs).length + 4 + r.length := by
    simp [tx_to_bytes_length]
  have hcs : CompactSize.from_bytes ((tx.to_bytes ++ r).drop 4) =
      .ok (CompactSize.new tx.inputs.length, csWidth tx.inputs.length) := by
    have hdrop4 : (tx.to_bytes ++ r).drop 4 =
        (CompactSize.new tx.inputs.length).to_bytes ++
          (inputsBytes tx.inputs ++ (le_bytes 4 tx.lock_time ++ r)) := by
      rw [BitcoinTransaction.to_bytes]
      simp only [List.append_assoc]
      exact List.drop_left' (length_le_bytes 4 tx.version)
    rw [hdrop4]
    exact cs_decode_encode tx.inputs.length hcnt64 _
  have hDI : decodeInputs tx.inputs.length (tx.to_bytes ++ r)
      (csWidth tx.inputs.length + 4) =
      .ok (tx.inputs,
        csWidth tx.inputs.length + 4 + (inputsBytes tx.inputs).length) := by
    have hpre := decodeInputs_encode tx.inputs hin
      (le_bytes 4 tx.version ++ (CompactSize.new tx.inputs.length).to_bytes)
      (le_bytes 4 tx.lock_time ++ r) (tx.to_bytes ++ r)
      (by rw [BitcoinTransaction.to_bytes]; simp [List.append_assoc])
    have hpl : (le_bytes 4 tx.version ++
        (CompactSize.new tx.inputs.length).to_bytes).length =
        csWidth tx.inputs.length + 4 := by
      simp [length_le_bytes, hW]; omega
    rw [hpl] at hpre
    exact hpre
  rw [BitcoinTransaction.from_bytes, if_neg (by omega)]
  simp only [hcs]
  simp only [CompactSize.new]
  simp only [hDI]
  rw [if_neg (by omega)]
  have htake4 : (tx.to_bytes ++ r).take 4 = le_bytes 4 tx.version := by
    rw [BitcoinTransaction.to_bytes]
    simp only [List.append_assoc]
    exact List.take_left' (length_le_bytes 4 tx.version)
  have hdropC : (tx.to_bytes ++ r).drop
      (csWidth tx.inputs.length + 4 + (inputsBytes tx.inputs).length) =
      le_bytes 4 tx.lock_time ++ r := by
    rw [show tx.to_bytes ++ r =
        (le_bytes 4 tx.version ++ (CompactSize.new tx.inputs.length).to_bytes ++
          inputsBytes tx.inputs) ++ (le_bytes 4 tx.lock_time ++ r) from by
      rw [BitcoinTransaction.to_bytes]; simp [List.append_assoc]]
    exact List.drop_left' (by simp [length_le_bytes, hW]; omega)
  rw [htake4, hdropC, List.take_left' (length_le_bytes 4 tx.lock_time),
    le_val_le_bytes_of_lt 4 _ (lt_256_pow_4 _ hver),
    le_val_le_bytes_of_lt 4 _ (lt_256_pow_4 _ hlock),
    show tx.to_bytes.length =
      csWidth tx.inputs.length + 4 + (inputsBytes tx.inputs).length + 4 from by
        rw [tx_to_bytes_length]; omega]
  rfl

/-- Any strict prefix of an encoded transaction fails with InsufficientBytes. -/
theorem tx_decode_trunc (tx : BitcoinTransaction) (h : tx.WF) (m : Nat)
    (hm : m < tx.to_bytes.length) :
    BitcoinTransaction.from_bytes (tx.to_bytes.take m) =
      .error .InsufficientBytes := by
  obtain ⟨hver, hlock, hcnt, hin⟩ := h
  have hcnt64 : tx.inputs.length < 2 ^ 64 := by omega
  have hW : ((CompactSize.new tx.inputs.length).to_bytes).length =
      csWidth tx.inputs.length := cs_to_bytes_length _
  have htot := tx_to_bytes_length tx
  have hbl : (tx.to_bytes.take m).length = m := by
    rw [List.length_take]
    omega
  by_cases hm4 : m < 4
  · rw [BitcoinTransaction.from_bytes, if_pos (by omega)]
  · have hsplit : tx.to_bytes = le_bytes 4 tx.version ++
        ((CompactSize.new tx.inputs.length).to_bytes ++
          (inputsBytes tx.inputs ++ le_bytes 4 tx.lock_time)) := by
      rw [BitcoinTransaction.to_bytes]
      simp [List.append_assoc]
    by_cases hmw : m - 4 < csWidth tx.inputs.length
    · have htake : tx.to_bytes.take m = le_bytes 4 tx.version ++
          ((CompactSize.new tx.inputs.length).to_bytes).take (m - 4) := by
        rw [hsplit, List.take_append_eq_append_take,
          List.take_of_length_le (by rw [length_le_bytes]; omega),
          List.take_append_of_le_length (by rw [hW, length_le_bytes]; omega),
          length_le_bytes]
      have hcs : CompactSize.from_bytes ((tx.to_bytes.take m).drop 4) =
          .error .InsufficientBytes := by
        rw [htake, List.drop_left' (length_le_bytes 4 tx.version)]
        exact cs_decode_trunc tx.inputs.length (m - 4) hmw
      rw [BitcoinTransaction.from_bytes, if_neg (by omega)]
      simp only [hcs]
    · have htake : tx.to_bytes.take m = le_bytes 4 tx.version ++
          ((CompactSize.new tx.inputs.length).to_bytes ++
            (inputsBytes tx.inputs ++ le_bytes 4 tx.lock_time).take
              (m - 4 - csWidth tx.inputs.length)) := by
        rw [hsplit, List.take_append_eq_append_take,
          List.take_of_length_le (by rw [length_le_bytes]; omega),
          List.take_append_eq_append_take,
          List.take_of_length_le (by rw [hW, length_le_bytes]; omega),
          length_le_bytes, hW]
      have hcs : CompactSize.from_bytes ((tx.to_bytes.take m).drop 4) =
          .ok (CompactSize.new tx.inputs.length, csWidth tx.inputs.length) := by
        rw [htake, List.drop_left' (length_le_bytes 4 tx.version)]
        exact cs_decode_encode tx.inputs.length hcnt64 _
      have hpl : (le_bytes 4 tx.version ++
          (CompactSize.new tx.inputs.length).to_bytes).length =
          csWidth tx.inputs.length + 4 := by
        simp [length_le_bytes, hW]; omega
      rw [BitcoinTransaction.from_bytes, if_neg (by omega)]
      simp only [hcs]
      simp only [CompactSize.new]
      by_cases hmj : m - 4 - csWidth tx.inputs.length < (inputsBytes tx.inputs).length
      · have htake2 : (inputsBytes tx.inputs ++ le_bytes 4 tx.lock_time).take
            (m - 4 - csWidth tx.inputs.length) =
            (inputsBytes tx.inputs).take (m - 4 - csWidth tx.inputs.length) :=
          List.take_append_of_le_length (by omega)
        have hDI : decodeInputs tx.inputs.length (tx.to_bytes.take m)
            (csWidth tx.inputs.length + 4) = .error .InsufficientBytes := by
          have hDI0 := decodeInputs_trunc tx.inputs hin
            (le_bytes 4 tx.version ++ (CompactSize.new tx.inputs.length).to_bytes)
            (tx.to_bytes.take m) (m - 4 - csWidth tx.inputs.length) hmj
            (by rw [htake, htake2, ← List.append_assoc])
          rw [hpl] at hDI0
          exact hDI0
        simp only [hDI]
      · have htake2 : (inputsBytes tx.inputs ++ le_bytes 4 tx.lock_time).take
            (m - 4 - csWidth tx.inputs.length) =
            inputsBytes tx.inputs ++ (le_bytes 4 tx.lock_time).take
              (m - 4 - csWidth tx.inputs.length - (inputsBytes tx.inputs).length) := by
          rw [List.take_append_eq_append_take, List.take_of_length_le (by omega)]
        have hDI : decodeInputs tx.inputs.length (tx.to_bytes.take m)
            (csWidth tx.inputs.length + 4) =
            .ok (tx.inputs,
              csWidth tx.inputs.length + 4 + (inputsBytes tx.inputs).length) := by
          have hDI0 := decodeInputs_encode tx.inputs hin
            (le_bytes 4 tx.version ++ (CompactSize.new tx.inputs.length).to_bytes)
            ((le_bytes 4 tx.lock_time).take
              (m - 4 - csWidth tx.inputs.length - (inputsBytes tx.inputs).length))
            (tx.to_bytes.take m)
            (by rw [htake, htake2]; simp [List.append_assoc])
          rw [hpl] at hDI0
          exact hDI0
        simp only [hDI]
        rw [if_pos (by omega)]

/-- Inversion for a successful BitcoinTransaction decode. -/
theorem tx_ok_inv (b : List Nat) (tx : BitcoinTransaction) (c : Nat)
    (h : BitcoinTransaction.from_bytes b = .ok (tx, c)) :
    c ≤ b.length ∧
      ∀ r, BitcoinTransaction.from_bytes (b ++ r) = .ok (tx, c) := by
  rw [BitcoinTransaction.from_bytes] at h
  by_cases hl4 : b.length < 4
  · rw [if_pos hl4] at h; exact absurd h (by simp)
  · rw [if_neg hl4] at h
    cases hcs : CompactSize.from_bytes (b.drop 4) with
    | error e => simp only [hcs] at h; exact absurd h (by simp)
    | ok p =>
      obtain ⟨cnt, off⟩ := p
      simp only [hcs] at h
      obtain ⟨_, hoff, hcsapp⟩ := cs_ok_inv _ cnt off hcs
      have hdl4 : (b.drop 4).length = b.length - 4 := by simp
      cases hdi : decodeInputs cnt.value b (off + 4) with
      | panic => simp only [hdi] at h; exact absurd h (by simp)
      | error e => simp only [hdi] at h; exact absurd h (by simp)
      | ok q =>
        obtain ⟨inputs, cursor⟩ := q
        simp only [hdi] at h
        have hcur := decodeInputs_le cnt.value b (off + 4) inputs cursor hdi
          (by omega)
        by_cases hlc : b.length < cursor + 4
        · rw [if_pos hlc] at h; exact absurd h (by simp)
        · rw [if_neg hlc] at h
          simp only [DecodeResult.ok.injEq, Prod.mk.injEq] at h
          obtain ⟨htx, hc⟩ := h
          refine ⟨by omega, fun r => ?_⟩
          rw [BitcoinTransaction.from_bytes, if_neg (by simp; omega)]
          rw [List.drop_append_of_le_length (by omega)]
          simp only [hcsapp r]
          simp only [decodeInputs_append cnt.value b r (off + 4) inputs cursor hdi]
          rw [if_neg (by simp; omega)]
          rw [List.take_append_of_le_length (by omega),
            List.drop_append_of_le_length (by omega),
            List.take_append_of_le_length (by simp [List.length_drop]; omega)]
          rw [htx, hc]

/-- BitcoinTransaction decoding either succeeds, reports InsufficientBytes,
or panics inside an input's Script decoder. -/
theorem tx_ok_insufficient_panic (b : List Nat) :
    (∃ p, BitcoinTransaction.from_bytes b = .ok p) ∨
      BitcoinTransaction.from_bytes b = .error .InsufficientBytes ∨
      BitcoinTransaction.from_bytes b = .panic := by
  rw [BitcoinTransaction.from_bytes]
  by_cases hl4 : b.length < 4
  · right; left; rw [if_pos hl4]
  · rw [if_neg hl4]
    rcases cs_ok_or_insufficient (b.drop 4) with ⟨⟨cnt, off⟩, hcs⟩ | hcs
    · simp only [hcs]
      rcases decodeInputs_ok_insufficient_panic cnt.value b (off + 4) with
        ⟨⟨inputs, cursor⟩, hdi⟩ | hdi | hdi
      · simp only [hdi]
        by_cases hlc : b.length < cursor + 4
        · right; left; rw [if_pos hlc]
        · left; exact ⟨_, by rw [if_neg hlc]⟩
      · right; left; simp only [hdi]
      · right; right; simp only [hdi]
    · right; left; simp only [hcs]

/-- The lowercase hex digit character for a nibble (models the digit table of
the `hex` crate's `encode`). -/
def hexDigitChar (n : Nat) : Char :=
  if n < 10 then Char.ofNat (48 + n) else Char.ofNat (87 + n)

/-- The two lowercase hex characters of one byte, high nibble first. -/
def byteToHex (b : Nat) : List Char := [hexDigitChar (b / 16), hexDigitChar (b % 16)]

/-- Models `hex::encode`: each byte in order becomes two lowercase hex
characters. -/
def hexEncode (bs : List Nat) : String := ⟨(bs.map byteToHex).join⟩

/-- The value of a hex digit character, accepting 0-9, a-f and A-F
(models the digit table of the `hex` crate's `decode`). -/
def hexDigitVal (c : Char) : Option Nat :=
  if 48 ≤ c.toNat ∧ c.toNat ≤ 57 then some (c.toNat - 48)
  else if 97 ≤ c.toNat ∧ c.toNat ≤ 102 then some (c.toNat - 87)
  else if 65 ≤ c.toNat ∧ c.toNat ≤ 70 then some (c.toNat - 55)
  else none

/-- Models `hex::decode` on the character list: pairs of hex digits become
bytes; an odd-length input or any non-hex character fails. -/
def hexDecodeChars : List Char → Option (List Nat)
  | [] => some []
  | [_] => none
  | c1 :: c2 :: rest =>
    match hexDigitVal c1, hexDigitVal c2, hexDecodeChars rest with
    | some hi, some lo, some bs => some ((16 * hi + lo) :: bs)
    | _, _, _ => none

/-- Models `hex::decode` on a string. -/
def hexDecode (s : String) : Option (List Nat) := hexDecodeChars s.data

/-- Mirrors `impl Serialize for Txid`: the identifier bytes hex-encoded. -/
def Txid.serialize (t : Txid) : String := hexEncode t.bytes

/-- Mirrors `impl Deserialize for Txid` on a string input: hex-decode
(failing on malformed hex), then require exactly 32 bytes. -/
def Txid.deserialize (s : String) : Option Txid :=
  match hexDecode s with
  | none => none
  | some bs => if bs.length = 32 then some ⟨bs⟩ else none

/-- A character of the lowercase hexadecimal alphabet. -/
def isLowerHexChar (c : Char) : Prop :=
  (48 ≤ c.toNat ∧ c.toNat ≤ 57) ∨ (97 ≤ c.toNat ∧ c.toNat ≤ 102)

instance (c : Char) : Decidable (isLowerHexChar c) := by
  unfold isLowerHexChar; infer_instance

theorem hexDigitChar_spec : ∀ n < 16,
    isLowerHexChar (hexDigitChar n) ∧ hexDigitVal (hexDigitChar n) = some n := by
  decide

theorem join_cons_eq {α : Type} (x : List α) (xs : List (List α)) :
    (x :: xs).join = x ++ xs.join := rfl

theorem hexChars_length (bs : List Nat) :
    ((bs.map byteToHex).join).length = 2 * bs.length := by
  induction bs with
  | nil => simp
  | cons b t ih =>
    rw [List.map_cons, join_cons_eq, List.length_append, ih,
      show (byteToHex b).length = 2 from rfl]
    have hlc : (b :: t).length = t.length + 1 := List.length_cons b t
    omega

theorem hexEncode_length (bs : List Nat) :
    (hexEncode bs).length = 2 * bs.length := by
  simpa [hexEncode, String.length] using hexChars_length bs

theorem hexChars_lower (bs : List Nat) (h : ∀ b ∈ bs, b < 256) :
    ∀ c ∈ (bs.map byteToHex).join, isLowerHexChar c := by
  induction bs with
  | nil => simp
  | cons b t ih =>
    intro c hc
    rw [List.map_cons, join_cons_eq] at hc
    rcases List.mem_append.mp hc with hc | hc
    · have hb : b < 256 := h b (by simp)
      simp only [byteToHex, List.mem_cons, List.not_mem_nil, or_false] at hc
      rcases hc with rfl | rfl
      · exact (hexDigitChar_spec (b / 16) (by omega)).1
      · exact (hexDigitChar_spec (b % 16) (by omega)).1
    · exact ih (fun x hx => h x (by simp [hx])) c hc

theorem hexEncode_lower (bs : List Nat) (h : ∀ b ∈ bs, b < 256) :
    ∀ c ∈ (hexEncode bs).data, isLowerHexChar c := by
  simpa [hexEncode] using hexChars_lower bs h

theorem hexDecodeChars_encode (bs : List Nat) (h : ∀ b ∈ bs, b < 256) :
    hexDecodeChars ((bs.map byteToHex).join) = some bs := by
  induction bs with
  | nil => simp [hexDecodeChars]
  | cons b t ih =>
    have hb : b < 256 := h b (by simp)
    have h1 := (hexDigitChar_spec (b / 16) (by omega)).2
    have h2 := (hexDigitChar_spec (b % 16) (by omega)).2
    have hcons : (((b :: t).map byteToHex).join) =
        hexDigitChar (b / 16) :: hexDigitChar (b % 16) :: ((t.map byteToHex).join) := by
      simp [byteToHex]
    rw [hcons]
    simp only [hexDecodeChars, h1, h2, ih (fun x hx => h x (by simp [hx]))]
    rw [show 16 * (b / 16) + b % 16 = b from by omega]

theorem hexDecode_encode (bs : List Nat) (h : ∀ b ∈ bs, b < 256) :
    hexDecode (hexEncode bs) = some bs := by
  simpa [hexDecode, hexEncode] using hexDecodeChars_encode bs h

theorem hexDecodeChars_all_digits (l : List Char) :
    ∀ (bs : List Nat), hexDecodeChars l = some bs →
      ∀ c ∈ l, (hexDigitVal c).isSome := by
  induction l using hexDecodeChars.induct with
  | case1 => intro bs h; simp
  | case2 hd => intro bs h; simp [hexDecodeChars] at h
  | case3 c1 c2 rest hi lo bs0 hrest h2 h1 ih =>
    intro bs h c hc
    rcases List.mem_cons.mp hc with rfl | hc
    · simp [h1]
    · rcases List.mem_cons.mp hc with rfl | hc
      · simp [h2]
      · exact ih bs0 hrest c hc
  | case4 c1 c2 rest hfail ih =>
    intro bs h
    exfalso
    rw [hexDecodeChars] at h
    cases e1 : hexDigitVal c1 with
    | none => simp only [e1] at h; exact absurd h (by simp)
    | some hi =>
      cases e2 : hexDigitVal c2 with
      | none => simp only [e1, e2] at h; exact absurd h (by simp)
      | some lo =>
        cases e3 : hexDecodeChars rest with
        | none => simp only [e1, e2, e3] at h; exact absurd h (by simp)
        | some bs0 => exact hfail hi lo bs0 e1 e2 e3

/-- A string with any non-hex character hex-decodes to none. -/
theorem hexDecode_bad_char (s : String) (c : Char) (hc : c ∈ s.data)
    (hbad : hexDigitVal c = none) : hexDecode s = none := by
  cases h : hexDecode s with
  | none => rfl
  | some bs =>
    have := hexDecodeChars_all_digits s.data bs h c hc
    rw [hbad] at this
    simp at this

/-- The four `writeln!` lines emitted for one input by the Display impl. -/
def inputDisplay (input : TransactionInput) : String :=
  "Previous Output Vout: " ++ Nat.repr input.previous_output.vout ++ "\n" ++
    ("ScriptSig Length: " ++ Nat.repr input.script_sig.bytes.length ++ "\n" ++
      ("ScriptSig: " ++ hexEncode input.script_sig.bytes ++ "\n" ++
        ("Sequence: " ++ Nat.repr input.sequence ++ "\n")))

/-- The Display impl's loop over the inputs, in order. -/
def inputsDisplay : List TransactionInput → String
  | [] => ""
  | input :: rest => inputDisplay input ++ inputsDisplay rest

/-- Mirrors `impl fmt::Display for BitcoinTransaction`: a Version line, the
four lines of each input in order, and a Lock Time line, each line ended by
a newline (`writeln!`). -/
def BitcoinTransaction.display (tx : BitcoinTransaction) : String :=
  "Version: " ++ Nat.repr tx.version ++ "\n" ++
    (inputsDisplay tx.inputs ++ ("Lock Time: " ++ Nat.repr tx.lock_time ++ "\n"))

/-- Modelled from the spec: the per-input lines of the section 6 rendering
contract, `Previous Output Vout`, `ScriptSig Length`, `ScriptSig` (lowercase
hex) and `Sequence`, labels exactly as written there. -/
def inputLines (input : TransactionInput) : List String :=
  ["Previous Output Vout: " ++ Nat.repr input.previous_output.vout,
   "ScriptSig Length: " ++ Nat.repr input.script_sig.bytes.length,
   "ScriptSig: " ++ hexEncode input.script_sig.bytes,
   "Sequence: " ++ Nat.repr input.sequence]

/-- Modelled from the spec: the full line list of the section 6 rendering
contract, a `Version` line, the per-input lines in input order, and a final
`Lock Time` line. -/
def displayLinesSpec (tx : BitcoinTransaction) : List String :=
  ("Version: " ++ Nat.repr tx.version) ::
    ((tx.inputs.map inputLines).join ++ ["Lock Time: " ++ Nat.repr tx.lock_time])

/-- Joins lines, terminating every line with a newline. -/
def unlines : List String → String
  | [] => ""
  | a :: t => a ++ "\n" ++ unlines t

theorem inputsDisplay_unlines (l : List TransactionInput) (tail : List String) :
    inputsDisplay l ++ unlines tail = unlines ((l.map inputLines).join ++ tail) := by
  induction l with
  | nil =>
    rw [show ((([] : List TransactionInput).map inputLines).join ++ tail) = tail
      from rfl]
    exact String.empty_append (unlines tail)
  | cons i t ih =>
    rw [show (((i :: t).map inputLines).join ++ tail) =
      inputLines i ++ ((t.map inputLines).join ++ tail) from by
        rw [List.map_cons, join_cons_eq, List.append_assoc]]
    rw [inputsDisplay, String.append_assoc, ih]
    simp [inputDisplay, inputLines, unlines, String.append_assoc]

/-- The Display output is exactly the spec's line list, each line terminated
by a newline. -/
theorem display_eq_unlines (tx : BitcoinTransaction) :
    tx.display = unlines (displayLinesSpec tx) := by
  rw [BitcoinTransaction.display, displayLinesSpec, unlines,
    ← inputsDisplay_unlines tx.inputs ["Lock Time: " ++ Nat.repr tx.lock_time]]
  simp [unlines, String.append_assoc, String.append_empty]

/-- C1: for every magnitude m in the test set, decoding the encoding of m
succeeds with magnitude m and consumed equal to the section 4.1 width table:
1 byte up to 252, 3 bytes up to 65535, 5 bytes up to 4294967295, 9 bytes
above. -/
theorem claim_C1_roundtrip_table :
    CompactSize.from_bytes (CompactSize.new 0).to_bytes = .ok (CompactSize.new 0, 1) ∧
    CompactSize.from_bytes (CompactSize.new 1).to_bytes = .ok (CompactSize.new 1, 1) ∧
    CompactSize.from_bytes (CompactSize.new 252).to_bytes =
      .ok (CompactSize.new 252, 1) ∧
    CompactSize.from_bytes (CompactSize.new 253).to_bytes =
      .ok (CompactSize.new 253, 3) ∧
    CompactSize.from_bytes (CompactSize.new 65535).to_bytes =
      .ok (CompactSize.new 65535, 3) ∧
    CompactSize.from_bytes (CompactSize.new 65536).to_bytes =
      .ok (CompactSize.new 65536, 5) ∧
    CompactSize.from_bytes (CompactSize.new 4294967295).to_bytes =
      .ok (CompactSize.new 4294967295, 5) ∧
    CompactSize.from_bytes (CompactSize.new 4294967296).to_bytes =
      .ok (CompactSize.new 4294967296, 9) ∧
    CompactSize.from_bytes (CompactSize.new 18446744073709551615).to_bytes =
      .ok (CompactSize.new 18446744073709551615, 9) :=
  ⟨rfl, rfl, rfl, rfl, rfl, rfl, rfl, rfl, rfl⟩

/-- C2 (code bug): the claim's intent holds away from the overflow, but on
the nine-byte buffer 0xFF×8, whose prefix declares 2^64-1 body bytes, the
usize bound computation at lib.rs:173 overflows and the program panics
instead of returning InsufficientBytes; on the claim's particular example
(1000 declared, 5 present) it does fail with InsufficientBytes. -/
theorem claim_C2_script_bounds :
    Script.from_bytes [0xFF, 0xFF, 0xFF, 0xFF, 0xFF, 0xFF, 0xFF, 0xFF, 0xFF] =
      .panic ∧
    Script.from_bytes [0xFD, 0xE8, 0x03, 1, 2, 3, 4, 5] =
      .error .InsufficientBytes :=
  ⟨rfl, rfl⟩

/-- C3: for every well-formed value of each of the five codec types and every
k between 1 and its encoded length, decoding the encoding with the last k
bytes removed fails with InsufficientBytes. -/
theorem claim_C3_truncation :
    (∀ (cs : CompactSize) (k : Nat), cs.WF → 1 ≤ k → k ≤ cs.to_bytes.length →
      CompactSize.from_bytes (cs.to_bytes.take (cs.to_bytes.length - k)) =
        .error .InsufficientBytes) ∧
    (∀ (op : OutPoint) (k : Nat), op.WF → 1 ≤ k → k ≤ op.to_bytes.length →
      OutPoint.from_bytes (op.to_bytes.take (op.to_bytes.length - k)) =
        .error .InsufficientBytes) ∧
    (∀ (s : Script) (k : Nat), s.WF → 1 ≤ k → k ≤ s.to_bytes.length →
      Script.from_bytes (s.to_bytes.take (s.to_bytes.length - k)) =
        .error .InsufficientBytes) ∧
    (∀ (i : TransactionInput) (k : Nat), i.WF → 1 ≤ k → k ≤ i.to_bytes.length →
      TransactionInput.from_bytes (i.to_bytes.take (i.to_bytes.length - k)) =
        .error .InsufficientBytes) ∧
    (∀ (tx : BitcoinTransaction) (k : Nat), tx.WF → 1 ≤ k →
      k ≤ tx.to_bytes.length →
      BitcoinTransaction.from_bytes (tx.to_bytes.take (tx.to_bytes.length - k)) =
        .error .InsufficientBytes) := by
  refine ⟨fun cs k _ hk1 hk2 => ?_, fun op k hWF hk1 hk2 => ?_,
    fun s k hWF hk1 hk2 => ?_, fun i k hWF hk1 hk2 => ?_,
    fun tx k hWF hk1 hk2 => ?_⟩
  · have hlen := cs_to_bytes_length cs
    exact cs_decode_trunc cs.value (cs.to_bytes.length - k) (by omega)
  · have hlen := op_to_bytes_length op hWF.1
    exact op_decode_short _ (by
      have := List.length_take_le (op.to_bytes.length - k) op.to_bytes
      omega)
  · exact script_decode_trunc s hWF (s.to_bytes.length - k) (by omega)
  · exact ti_decode_trunc i hWF (i.to_bytes.length - k) (by omega)
  · exact tx_decode_trunc tx hWF (tx.to_bytes.length - k) (by omega)

/-- C3 witness: concrete truncations of each codec's encoding fail with
InsufficientBytes. -/
theorem claim_C3_truncation_witness :
    ((CompactSize.new 300).WF ∧
      CompactSize.from_bytes
        ((CompactSize.new 300).to_bytes.take
          ((CompactSize.new 300).to_bytes.length - 1)) =
        .error .InsufficientBytes) ∧
    ((OutPoint.new (List.replicate 32 0) 0).WF ∧
      OutPoint.from_bytes
        ((OutPoint.new (List.replicate 32 0) 0).to_bytes.take
          ((OutPoint.new (List.replicate 32 0) 0).to_bytes.length - 4)) =
        .error .InsufficientBytes) ∧
    ((Script.new [0x51]).WF ∧
      Script.from_bytes
        ((Script.new [0x51]).to_bytes.take
          ((Script.new [0x51]).to_bytes.length - 1)) =
        .error .InsufficientBytes) ∧
    ((TransactionInput.new (OutPoint.new (List.replicate 32 0) 0)
        (Script.new [0x51]) 4294967295).WF ∧
      TransactionInput.from_bytes
        ((TransactionInput.new (OutPoint.new (List.replicate 32 0) 0)
            (Script.new [0x51]) 4294967295).to_bytes.take
          ((TransactionInput.new (OutPoint.new (List.replicate 32 0) 0)
              (Script.new [0x51]) 4294967295).to_bytes.length - 1)) =
        .error .InsufficientBytes) ∧
    ((BitcoinTransaction.new 1 [] 0).WF ∧
      BitcoinTransaction.from_bytes
        ((BitcoinTransaction.new 1 [] 0).to_bytes.take
          ((BitcoinTransaction.new 1 [] 0).to_bytes.length - 1)) =
        .error .InsufficientBytes) :=
  ⟨⟨by decide, claim_C3_truncation.1 (CompactSize.new 300) 1 (by decide)
      (by decide) (by decide)⟩,
   ⟨by decide, claim_C3_truncation.2.1 (OutPoint.new (List.replicate 32 0) 0) 4
      (by decide) (by decide) (by decide)⟩,
   ⟨by decide, claim_C3_truncation.2.2.1 (Script.new [0x51]) 1 (by decide)
      (by decide) (by decide)⟩,
   ⟨by decide, claim_C3_truncation.2.2.2.1
      (TransactionInput.new (OutPoint.new (List.replicate 32 0) 0)
        (Script.new [0x51]) 4294967295) 1 (by decide) (by decide) (by decide)⟩,
   ⟨by decide, claim_C3_truncation.2.2.2.2 (BitcoinTransaction.new 1 [] 0) 1
      (by decide) (by decide) (by decide)⟩⟩

/-- C4: decoding the encoding of any well-formed transaction succeeds with the
identical transaction (same version, lock_time and inputs, in order) and
consumed equal to the encoding's length. -/
theorem claim_C4_tx_roundtrip (tx : BitcoinTransaction) (h : tx.WF) :
    BitcoinTransaction.from_bytes tx.to_bytes = .ok (tx, tx.to_bytes.length) := by
  have h0 := tx_decode_encode tx h []
  rwa [List.append_nil] at h0

/-- C4 witness: a concrete one-input transaction round-trips. -/
theorem claim_C4_tx_roundtrip_witness :
    (BitcoinTransaction.new 2
      [TransactionInput.new (OutPoint.new (List.replicate 32 0) 0)
        (Script.new [0x51]) 4294967295] 0).WF ∧
    BitcoinTransaction.from_bytes
      (BitcoinTransaction.new 2
        [TransactionInput.new (OutPoint.new (List.replicate 32 0) 0)
          (Script.new [0x51]) 4294967295] 0).to_bytes =
      .ok (BitcoinTransaction.new 2
        [TransactionInput.new (OutPoint.new (List.replicate 32 0) 0)
          (Script.new [0x51]) 4294967295] 0,
        (BitcoinTransaction.new 2
          [TransactionInput.new (OutPoint.new (List.replicate 32 0) 0)
            (Script.new [0x51]) 4294967295] 0).to_bytes.length) :=
  ⟨by decide, claim_C4_tx_roundtrip _ (by decide)⟩

/-- C5: the non-minimal encoding 0xFD 0x01 0x00 decodes to magnitude 1 with
consumed 3, even though encoding magnitude 1 produces the single byte 0x01. -/
theorem claim_C5_nonminimal :
    CompactSize.from_bytes [0xFD, 0x01, 0x00] = .ok (CompactSize.new 1, 3) ∧
    (CompactSize.new 1).to_bytes = [1] :=
  ⟨rfl, rfl⟩

/-- C6 counterexample: the claimed dichotomy (success or InsufficientBytes)
is false of Script decoding at the nine-byte buffer 0xFF×8, where the
program panics on the overflowed usize bound computation. -/
theorem claim_C6_dichotomy_false :
    ¬((∃ p, Script.from_bytes [0xFF, 0xFF, 0xFF, 0xFF, 0xFF, 0xFF, 0xFF, 0xFF, 0xFF] =
        .ok p) ∨
      Script.from_bytes [0xFF, 0xFF, 0xFF, 0xFF, 0xFF, 0xFF, 0xFF, 0xFF, 0xFF] =
        .error .InsufficientBytes) := by
  have hp : Script.from_bytes [0xFF, 0xFF, 0xFF, 0xFF, 0xFF, 0xFF, 0xFF, 0xFF, 0xFF] =
      .panic := rfl
  intro h
  rcases h with ⟨p, hp2⟩ | hp2 <;> rw [hp] at hp2 <;> exact DecodeResult.noConfusion hp2

/-- C6 (amended): each binary decoder on every input buffer either succeeds,
fails with InsufficientBytes, or panics (the latter only in Script,
TransactionInput and BitcoinTransaction, on buffers whose decoded script
length prefix plus its width reaches 2^64); the InvalidFormat error is never
returned by any of these binary decode paths. -/
theorem claim_C6_only_insufficient :
    (∀ b, (∃ p, CompactSize.from_bytes b = .ok p) ∨
      CompactSize.from_bytes b = .error .InsufficientBytes) ∧
    (∀ b, (∃ p, OutPoint.from_bytes b = .ok p) ∨
      OutPoint.from_bytes b = .error .InsufficientBytes) ∧
    (∀ b, (∃ p, Script.from_bytes b = .ok p) ∨
      Script.from_bytes b = .error .InsufficientBytes ∨
      Script.from_bytes b = .panic) ∧
    (∀ b, (∃ p, TransactionInput.from_bytes b = .ok p) ∨
      TransactionInput.from_bytes b = .error .InsufficientBytes ∨
      TransactionInput.from_bytes b = .panic) ∧
    (∀ b, (∃ p, BitcoinTransaction.from_bytes b = .ok p) ∨
      BitcoinTransaction.from_bytes b = .error .InsufficientBytes ∨
      BitcoinTransaction.from_bytes b = .panic) :=
  ⟨cs_ok_or_insufficient, op_ok_or_insufficient, script_ok_insufficient_panic,
    ti_ok_insufficient_panic, tx_ok_insufficient_panic⟩

/-- C7: the transaction with version 1, no inputs and lock_time 0 encodes to
exactly the nine bytes 01 00 00 00 00 00 00 00 00, and decoding those nine
bytes returns the identical transaction with consumed 9. -/
theorem claim_C7_empty_tx :
    (BitcoinTransaction.new 1 [] 0).to_bytes = [1, 0, 0, 0, 0, 0, 0, 0, 0] ∧
    BitcoinTransaction.from_bytes [1, 0, 0, 0, 0, 0, 0, 0, 0] =
      .ok (BitcoinTransaction.new 1 [] 0, 9) :=
  ⟨rfl, rfl⟩

/-- C8: Txid text serialization is the 64-character lowercase hex of the 32
bytes in order (hex-decoding it recovers the bytes unflipped); text
deserialization fails on any non-hex character and on any decoded length
other than 32, and otherwise succeeds with the decoded bytes. -/
theorem claim_C8_txid_text :
    (∀ t : Txid, t.bytes.length = 32 → (Txid.serialize t).length = 64) ∧
    (∀ t : Txid, (∀ b ∈ t.bytes, b < 256) →
      (∀ c ∈ (Txid.serialize t).data, isLowerHexChar c) ∧
        hexDecode (Txid.serialize t) = some t.bytes) ∧
    (∀ s : String, (∃ c ∈ s.data, hexDigitVal c = none) →
      Txid.deserialize s = none) ∧
    (∀ (s : String) (bs : List Nat), hexDecode s = some bs → bs.length ≠ 32 →
      Txid.deserialize s = none) ∧
    (∀ (s : String) (bs : List Nat), hexDecode s = some bs → bs.length = 32 →
      Txid.deserialize s = some ⟨bs⟩) := by
  refine ⟨fun t h => ?_, fun t h => ⟨hexEncode_lower t.bytes h, hexDecode_encode t.bytes h⟩,
    fun s hs => ?_, fun s bs h hne => ?_, fun s bs h h32 => ?_⟩
  · rw [Txid.serialize, hexEncode_length, h]
  · obtain ⟨c, hc, hbad⟩ := hs
    simp [Txid.deserialize, hexDecode_bad_char s c hc hbad]
  · simp [Txid.deserialize, h, hne]
  · simp [Txid.deserialize, h, h32]

/-- C8 witness: the all-zero identifier serializes to 64 lowercase hex
characters that decode back; a non-hex string, a 1-byte hex string and a
64-character hex string behave as claimed. -/
theorem claim_C8_txid_text_witness :
    ((Txid.mk (List.replicate 32 0)).bytes.length = 32 ∧
      (Txid.serialize (Txid.mk (List.replicate 32 0))).length = 64) ∧
    ((∀ b ∈ (Txid.mk (List.replicate 32 0)).bytes, b < 256) ∧
      hexDecode (Txid.serialize (Txid.mk (List.replicate 32 0))) =
        some (Txid.mk (List.replicate 32 0)).bytes) ∧
    ((∃ c ∈ "zz".data, hexDigitVal c = none) ∧ Txid.deserialize "zz" = none) ∧
    (hexDecode "00" = some [0] ∧ Txid.deserialize "00" = none) ∧
    (hexDecode "0000000000000000000000000000000000000000000000000000000000000000" =
        some (List.replicate 32 0) ∧
      Txid.deserialize
          "0000000000000000000000000000000000000000000000000000000000000000" =
        some ⟨List.replicate 32 0⟩) :=
  ⟨⟨by decide, claim_C8_txid_text.1 (Txid.mk (List.replicate 32 0)) (by decide)⟩,
   ⟨by decide,
    (claim_C8_txid_text.2.1 (Txid.mk (List.replicate 32 0)) (by decide)).2⟩,
   ⟨by decide, claim_C8_txid_text.2.2.1 "zz" (by decide)⟩,
   ⟨by decide, claim_C8_txid_text.2.2.2.1 "00" [0] (by decide) (by decide)⟩,
   ⟨by decide, claim_C8_txid_text.2.2.2.2
      "0000000000000000000000000000000000000000000000000000000000000000"
      (List.replicate 32 0) (by decide) (by decide)⟩⟩

/-- C9: the Display rendering is exactly the spec's line list (Version line,
then per input the Previous Output Vout, ScriptSig Length, ScriptSig and
Sequence lines, then the Lock Time line), each line newline-terminated; the
section 8 one-input example renders to the exact six lines shown there. -/
theorem claim_C9_display :
    (∀ tx : BitcoinTransaction, tx.display = unlines (displayLinesSpec tx)) ∧
    (BitcoinTransaction.new 2
        [TransactionInput.new (OutPoint.new (List.replicate 32 0) 0)
          (Script.new [0x51]) 4294967295] 0).display =
      "Version: 2\nPrevious Output Vout: 0\nScriptSig Length: 1\nScriptSig: 51\nSequence: 4294967295\nLock Time: 0\n" :=
  ⟨display_eq_unlines, rfl⟩

/-- C10: a successful decode of any of the five codecs is unchanged when
arbitrary bytes are appended to the buffer: the result depends only on the
consumed front of the buffer. -/
theorem claim_C10_append_stable :
    (∀ (b r : List Nat) (cs : CompactSize) (c : Nat),
      CompactSize.from_bytes b = .ok (cs, c) →
      CompactSize.from_bytes (b ++ r) = .ok (cs, c)) ∧
    (∀ (b r : List Nat) (op : OutPoint) (c : Nat),
      OutPoint.from_bytes b = .ok (op, c) →
      OutPoint.from_bytes (b ++ r) = .ok (op, c)) ∧
    (∀ (b r : List Nat) (s : Script) (c : Nat),
      Script.from_bytes b = .ok (s, c) →
      Script.from_bytes (b ++ r) = .ok (s, c)) ∧
    (∀ (b r : List Nat) (i : TransactionInput) (c : Nat),
      TransactionInput.from_bytes b = .ok (i, c) →
      TransactionInput.from_bytes (b ++ r) = .ok (i, c)) ∧
    (∀ (b r : List Nat) (tx : BitcoinTransaction) (c : Nat),
      BitcoinTransaction.from_bytes b = .ok (tx, c) →
      BitcoinTransaction.from_bytes (b ++ r) = .ok (tx, c)) :=
  ⟨fun b r cs c h => cs_decode_append b r cs c h,
   fun b r op c h => (op_ok_inv b op c h).2.2 r,
   fun b r s c h => (script_ok_inv b s c h).2 r,
   fun b r i c h => (ti_ok_inv b i c h).2.2 r,
   fun b r tx c h => (tx_ok_inv b tx c h).2 r⟩

/-- C10 witness: appending trailing bytes to concrete successful decodes of
each codec leaves value and consumed count unchanged. -/
theorem claim_C10_append_stable_witness :
    (CompactSize.from_bytes [5] = .ok (CompactSize.new 5, 1) ∧
      CompactSize.from_bytes ([5] ++ [9]) = .ok (CompactSize.new 5, 1)) ∧
    (OutPoint.from_bytes (List.replicate 36 0) =
        .ok (OutPoint.new (List.replicate 32 0) 0, 36) ∧
      OutPoint.from_bytes (List.replicate 36 0 ++ [7]) =
        .ok (OutPoint.new (List.replicate 32 0) 0, 36)) ∧
    (Script.from_bytes [1, 0x51] = .ok (Script.new [0x51], 2) ∧
      Script.from_bytes ([1, 0x51] ++ [9]) = .ok (Script.new [0x51], 2)) ∧
    (TransactionInput.from_bytes (List.replicate 36 0 ++ [0, 1, 2, 3, 4]) =
        .ok (TransactionInput.new (OutPoint.new (List.replicate 32 0) 0)
          (Script.new []) (le_val [1, 2, 3, 4]), 41) ∧
      TransactionInput.from_bytes ((List.replicate 36 0 ++ [0, 1, 2, 3, 4]) ++ [9]) =
        .ok (TransactionInput.new (OutPoint.new (List.replicate 32 0) 0)
          (Script.new []) (le_val [1, 2, 3, 4]), 41)) ∧
    (BitcoinTransaction.from_bytes [1, 0, 0, 0, 0, 0, 0, 0, 0] =
        .ok (BitcoinTransaction.new 1 [] 0, 9) ∧
      BitcoinTransaction.from_bytes ([1, 0, 0, 0, 0, 0, 0, 0, 0] ++ [171]) =
        .ok (BitcoinTransaction.new 1 [] 0, 9)) :=
  ⟨⟨rfl, claim_C10_append_stable.1 [5] [9] (CompactSize.new 5) 1 rfl⟩,
   ⟨rfl, claim_C10_append_stable.2.1 (List.replicate 36 0) [7]
      (OutPoint.new (List.replicate 32 0) 0) 36 rfl⟩,
   ⟨rfl, claim_C10_append_stable.2.2.1 [1, 0x51] [9] (Script.new [0x51]) 2 rfl⟩,
   ⟨rfl, claim_C10_append_stable.2.2.2.1
      (List.replicate 36 0 ++ [0, 1, 2, 3, 4]) [9]
      (TransactionInput.new (OutPoint.new (List.replicate 32 0) 0)
        (Script.new []) (le_val [1, 2, 3, 4])) 41 rfl⟩,
   ⟨rfl, claim_C10_append_stable.2.2.2.2 [1, 0, 0, 0, 0, 0, 0, 0, 0] [171]
      (BitcoinTransaction.new 1 [] 0) 9 rfl⟩⟩

end BitcoinWire
